import Mathlib

/-!
# Verification of the memoizing cache engine

Shallow embedding of `src/Intermediate JavaScript/Closures/Memoization.js`.

The JS caches (`{}` objects and `Map`s) are modelled as association lists
`List (κ × V)` in insertion order, matching JS `Map` iteration semantics:
`Map.set` on an existing key updates the value in place (keeping its
position), `Map.set` on a fresh key appends at the end, `Map.delete`
removes the single entry with that key, and `Map.keys().next().value` is
the head of the list.

The wrapped computation is modelled as an oracle `fn : Nat → α → Except ε V`
indexed by the number of prior invocations, so that the number of times the
computation runs, impure behaviour across invocations, and thrown
exceptions (`Except.error`) are all observable.  Each memoized-call
function threads a `calls` counter counting invocations of `fn`.

`Date.now()` is modelled as an `Int` timestamp supplied per call (the two
reads of `Date.now()` inside one synchronous call are modelled as the same
instant).
-/

set_option autoImplicit false

universe u v w

variable {κ : Type u} {V : Type v} {ε : Type w} {α : Type u}

/-! ## JS Map / object primitives -/

/-- JS `Map.get` / `cache[key]`: value of the entry with key `k`, if any. -/
def mapGet [DecidableEq κ] : List (κ × V) → κ → Option V
  | [], _ => none
  | (k', v) :: rest, k => if k' = k then some v else mapGet rest k

/-- JS `Map.has` / `key in cache`. -/
def mapHas [DecidableEq κ] (c : List (κ × V)) (k : κ) : Bool :=
  (mapGet c k).isSome

/-- JS `Map.set` / `cache[key] = v`: update in place if the key is present
(its position in iteration order is kept), otherwise append at the end. -/
def mapSet [DecidableEq κ] : List (κ × V) → κ → V → List (κ × V)
  | [], k, v => [(k, v)]
  | (k', v') :: rest, k, v =>
    if k' = k then (k, v) :: rest else (k', v') :: mapSet rest k v

/-- JS `Map.delete`: remove the entry with key `k` (keys are unique in a
JS `Map`, so removing the first occurrence is exact). -/
def mapDelete [DecidableEq κ] : List (κ × V) → κ → List (κ × V)
  | [], _ => []
  | (k', v') :: rest, k =>
    if k' = k then rest else (k', v') :: mapDelete rest k

/-- JS `cache.keys().next().value`: the first key in iteration order. -/
def firstKey (c : List (κ × V)) : Option κ :=
  c.head?.map Prod.fst

/-! ## Example 1: `memoize` (unbounded object cache) -/

/-- State of a `memoize`-wrapped function: the closure's `cache` object,
plus the instrumentation counter `calls` (number of invocations of `fn`). -/
structure MemoSt (κ : Type u) (V : Type v) where
  cache : List (κ × V)
  calls : Nat
  deriving Repr, DecidableEq

/-- One call of the function returned by `memoize(fn)`:
key in cache → return `cache[key]`; otherwise invoke `fn`, store the
result on success, and return it.  A thrown exception propagates and
nothing is stored. -/
def memoizeCall [DecidableEq κ] (fn : Nat → α → Except ε V) (keyOf : α → κ)
    (s : MemoSt κ V) (x : α) : Except ε V × MemoSt κ V :=
  let key := keyOf x
  match mapGet s.cache key with
  | some v => (Except.ok v, s)
  | none =>
    match fn s.calls x with
    | Except.error e => (Except.error e, { s with calls := s.calls + 1 })
    | Except.ok r => (Except.ok r, ⟨mapSet s.cache key r, s.calls + 1⟩)

/-- Run a sequence of calls against a `memoize` cache, collecting results. -/
def memoizeRun [DecidableEq κ] (fn : Nat → α → Except ε V) (keyOf : α → κ) :
    MemoSt κ V → List α → List (Except ε V) × MemoSt κ V
  | s, [] => ([], s)
  | s, x :: xs =>
    let p := memoizeCall fn keyOf s x
    let q := memoizeRun fn keyOf p.2 xs
    (p.1 :: q.1, q.2)

/-! ## Example 5: `memoizeWithTTL` -/

/-- A TTL cache entry: `{ value, timestamp }`. -/
structure TTLEntry (V : Type v) where
  value : V
  timestamp : Int
  deriving Repr, DecidableEq

/-- State of a `memoizeWithTTL`-wrapped function. -/
structure TTLSt (κ : Type u) (V : Type v) where
  cache : List (κ × TTLEntry V)
  calls : Nat
  deriving Repr, DecidableEq

/-- One call of the function returned by `memoizeWithTTL(fn, ttlMs)` at
wall-clock time `now`: a cached entry with `now - timestamp < ttlMs` is a
hit; otherwise `fn` is invoked and, on success, `{value, timestamp: now}`
is stored under the key (overwriting any stale entry in place). -/
def memoizeWithTTLCall [DecidableEq κ] (fn : Nat → α → Except ε V)
    (keyOf : α → κ) (ttlMs : Int) (s : TTLSt κ V) (now : Int) (x : α) :
    Except ε V × TTLSt κ V :=
  let key := keyOf x
  match mapGet s.cache key with
  | some cached =>
    if now - cached.timestamp < ttlMs then
      (Except.ok cached.value, s)
    else
      match fn s.calls x with
      | Except.error e => (Except.error e, { s with calls := s.calls + 1 })
      | Except.ok r =>
        (Except.ok r, ⟨mapSet s.cache key ⟨r, now⟩, s.calls + 1⟩)
  | none =>
    match fn s.calls x with
    | Except.error e => (Except.error e, { s with calls := s.calls + 1 })
    | Except.ok r =>
      (Except.ok r, ⟨mapSet s.cache key ⟨r, now⟩, s.calls + 1⟩)

/-- Run a sequence of timed calls against a `memoizeWithTTL` cache. -/
def memoizeWithTTLRun [DecidableEq κ] (fn : Nat → α → Except ε V)
    (keyOf : α → κ) (ttlMs : Int) :
    TTLSt κ V → List (Int × α) → List (Except ε V) × TTLSt κ V
  | s, [] => ([], s)
  | s, (now, x) :: xs =>
    let p := memoizeWithTTLCall fn keyOf ttlMs s now x
    let q := memoizeWithTTLRun fn keyOf ttlMs p.2 xs
    (p.1 :: q.1, q.2)

/-! ## Example 6: `memoizeWithMaxSize` (LRU-like) -/

/-- State of a `memoizeWithMaxSize`-wrapped function. -/
structure MaxSt (κ : Type u) (V : Type v) where
  cache : List (κ × V)
  calls : Nat
  deriving Repr, DecidableEq

/-- One call of the function returned by `memoizeWithMaxSize(fn, maxSize)`.
On a hit the source deletes the key and then does
`cache.set(key, fn(...args))` — i.e. it re-invokes `fn` (moving the key to
the most-recently-used end).  On a miss it invokes `fn`, appends the new
entry, and if `cache.size > maxSize` deletes the entry under
`cache.keys().next().value` (the oldest key).  The third component of the
result is the list of keys evicted by this call (mirroring the
`[evicted]` log line). -/
def memoizeWithMaxSizeCall [DecidableEq κ] (fn : Nat → α → Except ε V)
    (keyOf : α → κ) (maxSize : Nat) (s : MaxSt κ V) (x : α) :
    Except ε V × MaxSt κ V × List κ :=
  let key := keyOf x
  if mapHas s.cache key then
    let c1 := mapDelete s.cache key
    match fn s.calls x with
    | Except.error e => (Except.error e, ⟨c1, s.calls + 1⟩, [])
    | Except.ok r => (Except.ok r, ⟨mapSet c1 key r, s.calls + 1⟩, [])
  else
    match fn s.calls x with
    | Except.error e => (Except.error e, ⟨s.cache, s.calls + 1⟩, [])
    | Except.ok r =>
      let c1 := mapSet s.cache key r
      if maxSize < c1.length then
        match firstKey c1 with
        | some fk => (Except.ok r, ⟨mapDelete c1 fk, s.calls + 1⟩, [fk])
        | none => (Except.ok r, ⟨c1, s.calls + 1⟩, [])
      else
        (Except.ok r, ⟨c1, s.calls + 1⟩, [])

/-- Run a sequence of calls against a `memoizeWithMaxSize` cache,
collecting results and all evicted keys in order. -/
def memoizeWithMaxSizeRun [DecidableEq κ] (fn : Nat → α → Except ε V)
    (keyOf : α → κ) (maxSize : Nat) :
    MaxSt κ V → List α → List (Except ε V) × MaxSt κ V × List κ
  | s, [] => ([], s, [])
  | s, x :: xs =>
    let p := memoizeWithMaxSizeCall fn keyOf maxSize s x
    let q := memoizeWithMaxSizeRun fn keyOf maxSize p.2.1 xs
    (p.1 :: q.1, q.2.1, p.2.2 ++ q.2.2)

/-! ## Example 7: class `MemoizedFunction` -/

/-- State of a `MemoizedFunction` instance: `cache`, the `hits` and
`misses` counters, plus the instrumentation counter `calls`. -/
structure MemoFnSt (κ : Type u) (V : Type v) where
  cache : List (κ × V)
  hits : Nat
  misses : Nat
  calls : Nat
  deriving Repr, DecidableEq

/-- `new MemoizedFunction(fn)`: empty cache, zero counters. -/
def MemoizedFunction.mk0 : MemoFnSt κ V := ⟨[], 0, 0, 0⟩

/-- `MemoizedFunction.call(...args)`: on a hit increment `hits` and return
the cached value; on a miss increment `misses` (the source increments it
before invoking `fn`), invoke `fn`, store the result on success and return
it.  The `Bool` component records whether the call was a hit. -/
def MemoizedFunction.call [DecidableEq κ] (fn : Nat → α → Except ε V)
    (keyOf : α → κ) (s : MemoFnSt κ V) (x : α) :
    Except ε V × MemoFnSt κ V × Bool :=
  let key := keyOf x
  match mapGet s.cache key with
  | some v => (Except.ok v, { s with hits := s.hits + 1 }, true)
  | none =>
    match fn s.calls x with
    | Except.error e =>
      (Except.error e,
        { s with misses := s.misses + 1, calls := s.calls + 1 }, false)
    | Except.ok r =>
      (Except.ok r,
        ⟨mapSet s.cache key r, s.hits, s.misses + 1, s.calls + 1⟩, false)

/-- The snapshot returned by `MemoizedFunction.stats()`.  The source
renders `hitRate` as the string `(hits / total * 100).toFixed(2) + "%"`
(and `"0%"` when `total == 0`); `hitRatePct` is that percentage as an
exact rational, leaving the two-decimal string formatting unmodelled. -/
structure StatsSnap where
  hits : Nat
  misses : Nat
  hitRatePct : ℚ
  size : Nat
  deriving Repr, DecidableEq

/-- `MemoizedFunction.stats()`. -/
def MemoizedFunction.stats (s : MemoFnSt κ V) : StatsSnap :=
  let total := s.hits + s.misses
  ⟨s.hits, s.misses,
    if 0 < total then (s.hits * 100 : ℚ) / total else 0,
    s.cache.length⟩

/-- `MemoizedFunction.clear()`: `this.cache.clear()` — the counters are
not touched by the source. -/
def MemoizedFunction.clear (s : MemoFnSt κ V) : MemoFnSt κ V :=
  { s with cache := [] }

/-- Run a sequence of calls on a `MemoizedFunction`, collecting each
call's result and hit flag. -/
def MemoizedFunction.run [DecidableEq κ] (fn : Nat → α → Except ε V)
    (keyOf : α → κ) :
    MemoFnSt κ V → List α → List (Except ε V × Bool) × MemoFnSt κ V
  | s, [] => ([], s)
  | s, x :: xs =>
    let p := MemoizedFunction.call fn keyOf s x
    let q := MemoizedFunction.run fn keyOf p.2.1 xs
    ((p.1, p.2.2) :: q.1, q.2)

/-! ## Default key derivation: `JSON.stringify(args)`

A model of JS values as they appear as arguments in the examples, and of
`JSON.stringify` applied to the argument array.  Per the JSON
serialization rules of JS, `undefined` appearing as an array element is
serialized as `null`, so `[undefined]` and `[null]` both stringify to the
same text `"[null]"`. -/

/-- JS argument values (the atoms used by the examples). -/
inductive JSValue where
  | undef : JSValue
  | jsNull : JSValue
  | num : Int → JSValue
  | str : String → JSValue
  | bool : Bool → JSValue
  deriving Repr, DecidableEq

/-- Serialization of one array element under `JSON.stringify`:
`undefined` inside an array becomes `null`. -/
def JSValue.serializeElem : JSValue → String
  | JSValue.undef => "null"
  | JSValue.jsNull => "null"
  | JSValue.num n => toString n
  | JSValue.str s => "\"" ++ s ++ "\""
  | JSValue.bool true => "true"
  | JSValue.bool false => "false"

/-- `JSON.stringify(args)` for an argument array. -/
def jsonStringifyArgs (args : List JSValue) : String :=
  "[" ++ String.intercalate "," (args.map JSValue.serializeElem) ++ "]"

/-! ## Basic lemmas about the map primitives -/

theorem mapGet_mapSet_self [DecidableEq κ] (c : List (κ × V)) (k : κ) (v : V) :
    mapGet (mapSet c k v) k = some v := by
  induction c with
  | nil => simp [mapSet, mapGet]
  | cons hd tl ih =>
    obtain ⟨k', v'⟩ := hd
    by_cases h : k' = k <;> simp [mapSet, mapGet, h, ih]

theorem mapGet_mapSet_ne [DecidableEq κ] (c : List (κ × V)) (k k' : κ) (v : V)
    (h : k ≠ k') : mapGet (mapSet c k v) k' = mapGet c k' := by
  induction c with
  | nil => simp [mapSet, mapGet, h]
  | cons hd tl ih =>
    obtain ⟨k₀, v₀⟩ := hd
    by_cases h0 : k₀ = k <;> simp [mapSet, mapGet, h0, h, ih]

theorem mapSet_of_absent [DecidableEq κ] (c : List (κ × V)) (k : κ) (v : V)
    (h : mapGet c k = none) : mapSet c k v = c ++ [(k, v)] := by
  induction c with
  | nil => simp [mapSet]
  | cons hd tl ih =>
    obtain ⟨k', v'⟩ := hd
    by_cases h0 : k' = k
    · simp [mapGet, h0] at h
    · simp [mapGet, h0] at h
      simp [mapSet, h0, ih h]

theorem length_mapSet_of_absent [DecidableEq κ] (c : List (κ × V)) (k : κ)
    (v : V) (h : mapGet c k = none) :
    (mapSet c k v).length = c.length + 1 := by
  simp [mapSet_of_absent c k v h]

theorem length_mapSet_le [DecidableEq κ] (c : List (κ × V)) (k : κ) (v : V) :
    (mapSet c k v).length ≤ c.length + 1 := by
  induction c with
  | nil => simp [mapSet]
  | cons hd tl ih =>
    obtain ⟨k', v'⟩ := hd
    by_cases h0 : k' = k <;> simp [mapSet, h0] <;> omega

theorem length_mapDelete_le [DecidableEq κ] (c : List (κ × V)) (k : κ) :
    (mapDelete c k).length ≤ c.length := by
  induction c with
  | nil => simp [mapDelete]
  | cons hd tl ih =>
    obtain ⟨k', v'⟩ := hd
    by_cases h0 : k' = k <;> simp [mapDelete, h0] <;> omega

theorem mapDelete_cons_self [DecidableEq κ] (k : κ) (v : V)
    (t : List (κ × V)) : mapDelete ((k, v) :: t) k = t := by
  simp [mapDelete]

/-! ## C1 -/

/-- C1: the claim fails on the code.  For the unbounded `memoize`, two
calls with the same argument invoke the wrapped computation exactly once
and return the same value; but for `memoizeWithMaxSize` the cache-hit
branch executes `cache.set(key, fn(...args))`, re-invoking the wrapped
computation, so two calls with the same argument (maxSize 3, no eviction
or TTL in play) invoke it twice — here with an invocation-indexed oracle
the second call even returns the recomputed value `101`, not the cached
`100`.  This contradicts the file's own stated contract that the cached
result is returned instead of recomputing. -/
theorem memoizeWithMaxSize_reinvokes_on_hit :
    memoizeRun (fun i (_ : Nat) => (Except.ok (100 + i) : Except Unit Nat))
        (fun x => x) ⟨[], 0⟩ [2, 2] =
      ([Except.ok 100, Except.ok 100], ⟨[(2, 100)], 1⟩) ∧
    memoizeWithMaxSizeRun
        (fun i (_ : Nat) => (Except.ok (100 + i) : Except Unit Nat))
        (fun x => x) 3 ⟨[], 0⟩ [2, 2] =
      ([Except.ok 100, Except.ok 101], ⟨[(2, 101)], 2⟩, []) := by
  constructor <;> rfl

/-! ## C10 -/

/-- C10: with the default key derivation `JSON.stringify(args)`, the
argument lists `[undefined]` and `[null]` both derive the key `"[null]"`,
so after a first call with `undefined` the second call with `null` is
served the cached result of the first (the oracle would have returned `1`
on a second invocation; the call count stays at `1`). -/
theorem memoize_undefined_null_collide :
    jsonStringifyArgs [JSValue.undef] = "[null]" ∧
    jsonStringifyArgs [JSValue.jsNull] = "[null]" ∧
    memoizeRun (fun i (_ : List JSValue) => (Except.ok i : Except Unit Nat))
        jsonStringifyArgs ⟨[], 0⟩ [[JSValue.undef], [JSValue.jsNull]] =
      ([Except.ok 0, Except.ok 0], ⟨[("[null]", 0)], 1⟩) := by
  refine ⟨rfl, rfl, ?_⟩
  rfl

/-! ## C3 -/

/-- C3: TTL behaviour of `memoizeWithTTL`.  With `ttl = T`, after a first
call at time `t0` caches `v0`, any lookup at `t1` with `t1 - t0 < T` is a
hit returning the cached `v0` without touching the state (in particular the
timestamp is not refreshed), and any lookup at `t2` with `t2 - t0 ≥ T` is
a miss — even though a hit happened in between — that re-invokes the
computation and returns the freshly computed `v1` (stored with timestamp
`t2`), not the stale `v0`. -/
theorem memoizeWithTTL_expiry [DecidableEq κ] (fn : Nat → α → Except ε V)
    (keyOf : α → κ) (T t0 t1 t2 : Int) (x : α) (v0 v1 : V)
    (h01 : t1 - t0 < T) (h02 : T ≤ t2 - t0)
    (hf0 : fn 0 x = Except.ok v0) (hf1 : fn 1 x = Except.ok v1) :
    memoizeWithTTLRun fn keyOf T ⟨[], 0⟩ [(t0, x), (t1, x), (t2, x)] =
      ([Except.ok v0, Except.ok v0, Except.ok v1],
        ⟨[(keyOf x, ⟨v1, t2⟩)], 2⟩) := by
  simp [memoizeWithTTLRun, memoizeWithTTLCall, mapGet, mapSet, hf0, hf1,
    h01, not_lt.mpr h02]

/-- Witness for C3 at the spec's concrete scenario: `ttl = 1000`,
calls at `t = 0` (miss), `t = 500` (hit), `t = 1100` (miss, fresh value). -/
theorem memoizeWithTTL_expiry_witness :
    memoizeWithTTLRun
        (fun i (_ : Nat) => (Except.ok (10 + i) : Except Unit Nat))
        (fun x => x) 1000 ⟨[], 0⟩ [(0, 7), (500, 7), (1100, 7)] =
      ([Except.ok 10, Except.ok 10, Except.ok 11], ⟨[(7, ⟨11, 1100⟩)], 2⟩) :=
  memoizeWithTTL_expiry (fun i _ => Except.ok (10 + i)) (fun x => x)
    1000 0 500 1100 7 10 11 (by decide) (by decide) rfl rfl

/-! ## C4 -/

/-- C4: when the wrapped computation throws, every variant propagates the
exception, stores nothing under the key, and leaves the cache unchanged, so
the next call with the same argument invokes the computation again (the
invocation counter advances by two over the two calls and the second error
is the freshly thrown one).  Stated for any state whose cache has no entry
under the key — which is every reachable state when the computation always
throws on that key, since entries are only stored on success. -/
theorem compute_error_propagates_and_not_cached [DecidableEq κ] :
    (∀ (fn : Nat → α → Except ε V) (keyOf : α → κ) (s : MemoSt κ V) (x : α)
        (e₁ e₂ : ε),
        mapGet s.cache (keyOf x) = none →
        fn s.calls x = Except.error e₁ →
        fn (s.calls + 1) x = Except.error e₂ →
        memoizeRun fn keyOf s [x, x] =
          ([Except.error e₁, Except.error e₂],
            { s with calls := s.calls + 2 })) ∧
    (∀ (fn : Nat → α → Except ε V) (keyOf : α → κ) (T t1 t2 : Int)
        (s : TTLSt κ V) (x : α) (e₁ e₂ : ε),
        mapGet s.cache (keyOf x) = none →
        fn s.calls x = Except.error e₁ →
        fn (s.calls + 1) x = Except.error e₂ →
        memoizeWithTTLRun fn keyOf T s [(t1, x), (t2, x)] =
          ([Except.error e₁, Except.error e₂],
            { s with calls := s.calls + 2 })) ∧
    (∀ (fn : Nat → α → Except ε V) (keyOf : α → κ) (maxSize : Nat)
        (s : MaxSt κ V) (x : α) (e₁ e₂ : ε),
        mapGet s.cache (keyOf x) = none →
        fn s.calls x = Except.error e₁ →
        fn (s.calls + 1) x = Except.error e₂ →
        memoizeWithMaxSizeRun fn keyOf maxSize s [x, x] =
          ([Except.error e₁, Except.error e₂],
            { s with calls := s.calls + 2 }, [])) ∧
    (∀ (fn : Nat → α → Except ε V) (keyOf : α → κ) (s : MemoFnSt κ V)
        (x : α) (e₁ e₂ : ε),
        mapGet s.cache (keyOf x) = none →
        fn s.calls x = Except.error e₁ →
        fn (s.calls + 1) x = Except.error e₂ →
        MemoizedFunction.run fn keyOf s [x, x] =
          ([(Except.error e₁, false), (Except.error e₂, false)],
            { s with misses := s.misses + 2, calls := s.calls + 2 })) := by
  refine ⟨?_, ?_, ?_, ?_⟩
  · intro fn keyOf s x e₁ e₂ hget hf1 hf2
    simp [memoizeRun, memoizeCall, hget, hf1, hf2]
  · intro fn keyOf T t1 t2 s x e₁ e₂ hget hf1 hf2
    simp [memoizeWithTTLRun, memoizeWithTTLCall, hget, hf1, hf2]
  · intro fn keyOf maxSize s x e₁ e₂ hget hf1 hf2
    simp [memoizeWithMaxSizeRun, memoizeWithMaxSizeCall, mapHas, hget,
      hf1, hf2]
  · intro fn keyOf s x e₁ e₂ hget hf1 hf2
    simp [MemoizedFunction.run, MemoizedFunction.call, hget, hf1, hf2]

/-- Witness for C4: an always-throwing computation under all four
variants, from the respective initial states, at argument `5`. -/
theorem compute_error_propagates_witness :
    memoizeRun (fun _ (_ : Nat) => (Except.error 9 : Except Nat Nat))
        (fun x => x) ⟨[], 0⟩ [5, 5] =
      ([Except.error 9, Except.error 9], ⟨[], 2⟩) ∧
    memoizeWithTTLRun (fun _ (_ : Nat) => (Except.error 9 : Except Nat Nat))
        (fun x => x) 1000 ⟨[], 0⟩ [(0, 5), (1, 5)] =
      ([Except.error 9, Except.error 9], ⟨[], 2⟩) ∧
    memoizeWithMaxSizeRun
        (fun _ (_ : Nat) => (Except.error 9 : Except Nat Nat))
        (fun x => x) 3 ⟨[], 0⟩ [5, 5] =
      ([Except.error 9, Except.error 9], ⟨[], 2⟩, []) ∧
    MemoizedFunction.run (fun _ (_ : Nat) => (Except.error 9 : Except Nat Nat))
        (fun x => x) ⟨[], 0, 0, 0⟩ [5, 5] =
      ([(Except.error 9, false), (Except.error 9, false)], ⟨[], 0, 2, 2⟩) :=
  ⟨compute_error_propagates_and_not_cached.1 _ _ _ 5 9 9 rfl rfl rfl,
   compute_error_propagates_and_not_cached.2.1 _ _ 1000 0 1 _ 5 9 9 rfl rfl rfl,
   compute_error_propagates_and_not_cached.2.2.1 _ _ 3 _ 5 9 9 rfl rfl rfl,
   compute_error_propagates_and_not_cached.2.2.2 _ _ _ 5 9 9 rfl rfl rfl⟩

/-! ## C5 -/

/-- C5 counterexample: `MemoizedFunction.clear()` only clears the cache;
it does not reset the counters.  After one miss (`misses = 1`) a `clear()`
leaves `misses` at `1`, refuting the claim that `clear()` resets the hit,
miss and eviction counters to zero (the class has no eviction counter at
all). -/
theorem clear_does_not_reset_counters :
    MemoizedFunction.clear
        ((MemoizedFunction.call (fun _ (_ : Nat) => (Except.ok 7 : Except Unit Nat))
          (fun x => x) ⟨[], 0, 0, 0⟩ 3).2.1) = ⟨[], 0, 1, 1⟩ ∧
    ¬ (MemoizedFunction.clear
        ((MemoizedFunction.call (fun _ (_ : Nat) => (Except.ok 7 : Except Unit Nat))
          (fun x => x) ⟨[], 0, 0, 0⟩ 3).2.1)).misses = 0 := by
  constructor
  · rfl
  · decide

/-- C5 amended: `clear()` empties the Entry Store while leaving the `hits`
and `misses` counters (and the invocation count) unchanged, and no call
operation ever decreases either counter.  (The class keeps no eviction
counter.) -/
theorem clear_empties_store_and_counters_monotone :
    (∀ (s : MemoFnSt κ V),
        MemoizedFunction.clear s = ⟨[], s.hits, s.misses, s.calls⟩) ∧
    (∀ [DecidableEq κ] (fn : Nat → α → Except ε V) (keyOf : α → κ)
        (s : MemoFnSt κ V) (x : α),
        s.hits ≤ ((MemoizedFunction.call fn keyOf s x).2.1).hits ∧
        s.misses ≤ ((MemoizedFunction.call fn keyOf s x).2.1).misses) := by
  constructor
  · intro s; cases s; rfl
  · intro _ fn keyOf s x
    unfold MemoizedFunction.call
    rcases hm : mapGet s.cache (keyOf x) with _ | v
    · rcases hf : fn s.calls x with e | r <;> simp [hm, hf]
    · simp [hm]

/-! ## C6 -/

/-- Number of hit-flagged calls in a run log. -/
def countHits (log : List (Except ε V × Bool)) : Nat :=
  (log.filter (fun p => p.2)).length

/-- Number of miss-flagged calls in a run log. -/
def countMisses (log : List (Except ε V × Bool)) : Nat :=
  (log.filter (fun p => !p.2)).length

/-- The hit and miss counters accumulate exactly the number of hit- and
miss-flagged calls of any run. -/
theorem run_counters_accumulate [DecidableEq κ] (fn : Nat → α → Except ε V)
    (keyOf : α → κ) (s : MemoFnSt κ V) (xs : List α) :
    ((MemoizedFunction.run fn keyOf s xs).2).hits =
        s.hits + countHits (MemoizedFunction.run fn keyOf s xs).1 ∧
    ((MemoizedFunction.run fn keyOf s xs).2).misses =
        s.misses + countMisses (MemoizedFunction.run fn keyOf s xs).1 := by
  induction xs generalizing s with
  | nil => simp [MemoizedFunction.run, countHits, countMisses]
  | cons x xs ih =>
    rcases hm : mapGet s.cache (keyOf x) with _ | v
    · rcases hf : fn s.calls x with e | r
      · have := ih { s with misses := s.misses + 1, calls := s.calls + 1 }
        simp [MemoizedFunction.run, MemoizedFunction.call, hm, hf,
          countHits, countMisses] at this ⊢
        omega
      · have := ih ⟨mapSet s.cache (keyOf x) r, s.hits, s.misses + 1,
          s.calls + 1⟩
        simp [MemoizedFunction.run, MemoizedFunction.call, hm, hf,
          countHits, countMisses] at this ⊢
        omega
    · have := ih { s with hits := s.hits + 1 }
      simp [MemoizedFunction.run, MemoizedFunction.call, hm,
        countHits, countMisses] at this ⊢
      omega

/-- C6 counterexample: after one miss and one hit (`h = m = 1`), the
code's `hitRate` is the percentage `50` (rendered `"50.00%"`), not the
fraction `h / (h + m) = 1/2` the claim states. -/
theorem stats_hitRate_is_percentage_cex :
    MemoizedFunction.stats
        ((MemoizedFunction.run (fun _ (_ : Nat) => (Except.ok 7 : Except Unit Nat))
          (fun x => x) ⟨[], 0, 0, 0⟩ [5, 5]).2) = ⟨1, 1, 50, 1⟩ ∧
    ¬ (MemoizedFunction.stats
        ((MemoizedFunction.run (fun _ (_ : Nat) => (Except.ok 7 : Except Unit Nat))
          (fun x => x) ⟨[], 0, 0, 0⟩ [5, 5]).2)).hitRatePct = 1 / (1 + 1) := by
  have hrun : (MemoizedFunction.run (fun _ (_ : Nat) => (Except.ok 7 : Except Unit Nat))
      (fun x => x) ⟨[], 0, 0, 0⟩ [5, 5]).2 = ⟨[(5, 7)], 1, 1, 1⟩ := rfl
  rw [hrun]
  constructor
  · norm_num [MemoizedFunction.stats]
  · norm_num [MemoizedFunction.stats]

/-- C6 amended: after any sequence of calls from a fresh instance
producing `h` hit-flagged and `m` miss-flagged calls, `stats()` reports
`hits = h` and `misses = m`, and its hit-rate field is the percentage
`100 * h / (h + m)` (the source renders it as a two-decimal percent
string), with the documented convention of `0` when `h + m = 0`. -/
theorem stats_correct_over_any_trace [DecidableEq κ]
    (fn : Nat → α → Except ε V) (keyOf : α → κ) (xs : List α) :
    (MemoizedFunction.stats
        ((MemoizedFunction.run fn keyOf ⟨[], 0, 0, 0⟩ xs).2)).hits =
      countHits (MemoizedFunction.run fn keyOf ⟨[], 0, 0, 0⟩ xs).1 ∧
    (MemoizedFunction.stats
        ((MemoizedFunction.run fn keyOf ⟨[], 0, 0, 0⟩ xs).2)).misses =
      countMisses (MemoizedFunction.run fn keyOf ⟨[], 0, 0, 0⟩ xs).1 ∧
    (MemoizedFunction.stats
        ((MemoizedFunction.run fn keyOf ⟨[], 0, 0, 0⟩ xs).2)).hitRatePct =
      (if 0 < countHits (MemoizedFunction.run fn keyOf ⟨[], 0, 0, 0⟩ xs).1 +
            countMisses (MemoizedFunction.run fn keyOf ⟨[], 0, 0, 0⟩ xs).1 then
        (countHits (MemoizedFunction.run fn keyOf ⟨[], 0, 0, 0⟩ xs).1 * 100 : ℚ) /
          (countHits (MemoizedFunction.run fn keyOf ⟨[], 0, 0, 0⟩ xs).1 +
            countMisses (MemoizedFunction.run fn keyOf ⟨[], 0, 0, 0⟩ xs).1)
      else 0) := by
  obtain ⟨hh, hmm⟩ := run_counters_accumulate fn keyOf ⟨[], 0, 0, 0⟩ xs
  simp only [MemoizedFunction.stats]
  simp at hh hmm
  rw [hh, hmm]
  refine ⟨rfl, rfl, ?_⟩
  push_cast
  rfl

/-! ## C7 -/

/-- C7 counterexample: with `ttl = 5`, an entry cached at `t = 0` and
looked up at `t = 5` is expired and treated as a miss, but the lookup does
*not* remove the expired entry from the store: the source only overwrites
it after a successful recomputation, and `memoizeWithTTL` keeps no
eviction counter.  Here the recomputation throws, and the stale entry
`(3, {value 10, timestamp 0})` is still in the store afterwards. -/
theorem ttl_expired_entry_not_removed :
    memoizeWithTTLRun
        (fun i (_ : Nat) =>
          if i = 0 then (Except.ok 10 : Except Unit Nat) else Except.error ())
        (fun x => x) 5 ⟨[], 0⟩ [(0, 3), (5, 3)] =
      ([Except.ok 10, Except.error ()], ⟨[(3, ⟨10, 0⟩)], 2⟩) ∧
    mapGet (memoizeWithTTLRun
        (fun i (_ : Nat) =>
          if i = 0 then (Except.ok 10 : Except Unit Nat) else Except.error ())
        (fun x => x) 5 ⟨[], 0⟩ [(0, 3), (5, 3)]).2.cache 3 = some ⟨10, 0⟩ := by
  constructor
  · rfl
  · rfl

/-- C7 amended: on `get`, an entry with `now - createdAt ≥ ttl` is treated
as absent: the computation is invoked (a miss); on success the fresh value
overwrites the entry in place with timestamp `now`, while on failure the
stale entry remains in the store; no eviction is recorded
(`memoizeWithTTL` has no eviction counter). -/
theorem memoizeWithTTL_lazy_expiry [DecidableEq κ]
    (fn : Nat → α → Except ε V) (keyOf : α → κ) (T : Int) (s : TTLSt κ V)
    (now : Int) (x : α) (v : V) (t0 : Int)
    (hc : mapGet s.cache (keyOf x) = some ⟨v, t0⟩) (hexp : T ≤ now - t0) :
    memoizeWithTTLCall fn keyOf T s now x =
      (match fn s.calls x with
       | Except.ok r =>
         (Except.ok r, ⟨mapSet s.cache (keyOf x) ⟨r, now⟩, s.calls + 1⟩)
       | Except.error e => (Except.error e, { s with calls := s.calls + 1 })) := by
  rcases hf : fn s.calls x with e | r <;>
    simp [memoizeWithTTLCall, hc, not_lt.mpr hexp, hf]

/-- Witness for C7's amended statement: the expired-and-throwing lookup of
the counterexample, obtained from `memoizeWithTTL_lazy_expiry` at the
concrete state. -/
theorem memoizeWithTTL_lazy_expiry_witness :
    memoizeWithTTLCall (fun _ (_ : Nat) => (Except.error () : Except Unit Nat))
        (fun x => x) 5 ⟨[(3, ⟨10, 0⟩)], 1⟩ 5 3 =
      (Except.error (), ⟨[(3, ⟨10, 0⟩)], 2⟩) :=
  memoizeWithTTL_lazy_expiry (fun _ _ => Except.error ()) (fun x => x) 5
    ⟨[(3, ⟨10, 0⟩)], 1⟩ 5 3 10 0 rfl (by decide)

/-! ## C8 -/

theorem length_mapDelete_of_present [DecidableEq κ] (c : List (κ × V))
    (k : κ) (v : V) (h : mapGet c k = some v) :
    (mapDelete c k).length + 1 = c.length := by
  induction c with
  | nil => simp [mapGet] at h
  | cons hd tl ih =>
    obtain ⟨k', v'⟩ := hd
    by_cases h0 : k' = k
    · simp [mapDelete, h0]
    · simp [mapGet, h0] at h
      simp [mapDelete, h0, ih h]

theorem mapSet_ne_nil [DecidableEq κ] (c : List (κ × V)) (k : κ) (v : V) :
    mapSet c k v ≠ [] := by
  cases c with
  | nil => simp [mapSet]
  | cons hd tl =>
    obtain ⟨k', v'⟩ := hd
    by_cases h0 : k' = k <;> simp [mapSet, h0]

/-- One `memoizeWithMaxSize` call keeps the store within the bound: a hit
replaces an entry (after the source's delete/re-set dance), and a miss's
insertion is immediately followed by the eviction of the oldest entry
whenever the size exceeds `maxSize`. -/
theorem maxSizeCall_preserves_bound [DecidableEq κ]
    (fn : Nat → α → Except ε V) (keyOf : α → κ) (maxSize : Nat)
    (s : MaxSt κ V) (x : α) (h : s.cache.length ≤ maxSize) :
    ((memoizeWithMaxSizeCall fn keyOf maxSize s x).2.1).cache.length ≤
      maxSize := by
  unfold memoizeWithMaxSizeCall
  cases hh : mapHas s.cache (keyOf x) with
  | true =>
    obtain ⟨v, hv⟩ : ∃ v, mapGet s.cache (keyOf x) = some v := by
      simpa [mapHas, Option.isSome_iff_exists] using hh
    have hdel := length_mapDelete_of_present s.cache (keyOf x) v hv
    rcases hf : fn s.calls x with e | r
    · have := length_mapDelete_le s.cache (keyOf x)
      simp [hh, hf]
      omega
    · have := length_mapSet_le (mapDelete s.cache (keyOf x)) (keyOf x) r
      simp [hh, hf]
      omega
  | false =>
    have hnone : mapGet s.cache (keyOf x) = none := by
      cases hg : mapGet s.cache (keyOf x) with
      | none => rfl
      | some v => simp [mapHas, hg] at hh
    rcases hf : fn s.calls x with e | r
    · simp [hh, hf]
      exact h
    · have hlen := length_mapSet_of_absent s.cache (keyOf x) r hnone
      by_cases hcap : maxSize < (mapSet s.cache (keyOf x) r).length
      · rcases hc1 : mapSet s.cache (keyOf x) r with _ | ⟨⟨fk, fv⟩, tl⟩
        · exact absurd hc1 (mapSet_ne_nil s.cache (keyOf x) r)
        · rw [hc1] at hcap hlen
          simp at hcap hlen
          simp [hh, hf, hc1, hcap, firstKey, mapDelete_cons_self]
          omega
      · simp [hh, hf, hcap]
        omega

/-- C8: for every run of `memoizeWithMaxSize` with `maxEntries = maxSize`
starting from the empty store, the store holds at most `maxSize` entries
after every completed call (every prefix of calls is itself such a run). -/
theorem memoizeWithMaxSize_size_bounded [DecidableEq κ]
    (fn : Nat → α → Except ε V) (keyOf : α → κ) (maxSize : Nat)
    (xs : List α) :
    ((memoizeWithMaxSizeRun fn keyOf maxSize ⟨[], 0⟩ xs).2.1).cache.length ≤
      maxSize := by
  suffices H : ∀ (xs : List α) (s : MaxSt κ V), s.cache.length ≤ maxSize →
      ((memoizeWithMaxSizeRun fn keyOf maxSize s xs).2.1).cache.length ≤
        maxSize from
    H xs ⟨[], 0⟩ (by simp)
  intro xs
  induction xs with
  | nil => intro s hs; simpa [memoizeWithMaxSizeRun] using hs
  | cons x xs ih =>
    intro s hs
    simp only [memoizeWithMaxSizeRun]
    exact ih _ (maxSizeCall_preserves_bound fn keyOf maxSize s x hs)

/-! ## C9 -/

/-- Modelled from the spec: the "always recompute" behaviour that
`maxEntries == 0` is claimed to degenerate to — every call invokes the
wrapped computation, in order. -/
def alwaysRecompute (fn : Nat → α → Except ε V) : Nat → List α → List (Except ε V)
  | _, [] => []
  | c, x :: xs => fn c x :: alwaysRecompute fn (c + 1) xs

/-- C9: with `maxEntries = 0`, every call from the (invariantly) empty
store misses, invokes the wrapped computation, and on success the freshly
stored entry is evicted within the same call, so the store is empty again
when the call returns; over any run the results are exactly the freshly
recomputed ones and the computation runs once per call. -/
theorem memoizeWithMaxSize_zero_always_recomputes [DecidableEq κ]
    (fn : Nat → α → Except ε V) (keyOf : α → κ) :
    (∀ (c : Nat) (x : α),
        memoizeWithMaxSizeCall fn keyOf 0 ⟨[], c⟩ x =
          (fn c x, ⟨[], c + 1⟩,
            match fn c x with
            | Except.ok _ => [keyOf x]
            | Except.error _ => [])) ∧
    (∀ xs : List α,
        (memoizeWithMaxSizeRun fn keyOf 0 ⟨[], 0⟩ xs).1 =
          alwaysRecompute fn 0 xs ∧
        (memoizeWithMaxSizeRun fn keyOf 0 ⟨[], 0⟩ xs).2.1 =
          ⟨[], xs.length⟩) := by
  have step : ∀ (c : Nat) (x : α),
      memoizeWithMaxSizeCall fn keyOf 0 ⟨[], c⟩ x =
        (fn c x, ⟨[], c + 1⟩,
          match fn c x with
          | Except.ok _ => [keyOf x]
          | Except.error _ => []) := by
    intro c x
    rcases hf : fn c x with e | r <;>
      simp [memoizeWithMaxSizeCall, mapHas, mapGet, mapSet, firstKey,
        mapDelete, hf]
  refine ⟨step, ?_⟩
  have aux : ∀ (xs : List α) (c : Nat),
      (memoizeWithMaxSizeRun fn keyOf 0 ⟨[], c⟩ xs).1 =
        alwaysRecompute fn c xs ∧
      (memoizeWithMaxSizeRun fn keyOf 0 ⟨[], c⟩ xs).2.1 =
        ⟨[], c + xs.length⟩ := by
    intro xs
    induction xs with
    | nil => intro c; simp [memoizeWithMaxSizeRun, alwaysRecompute]
    | cons x xs ih =>
      intro c
      simp only [memoizeWithMaxSizeRun, alwaysRecompute, step c x]
      rcases ih (c + 1) with ⟨ih1, ih2⟩
      refine ⟨by simp [ih1], by simp [ih2]; omega⟩
  intro xs
  simpa using aux xs 0

/-! ## C2 -/

/-- The cache contents after storing `v k` for each key of `ks` in order. -/
def entriesOf (v : κ → V) (ks : List κ) : List (κ × V) :=
  ks.map (fun k => (k, v k))

@[simp] theorem entriesOf_nil (v : κ → V) : entriesOf v [] = [] := rfl

@[simp] theorem entriesOf_cons (v : κ → V) (k : κ) (ks : List κ) :
    entriesOf v (k :: ks) = (k, v k) :: entriesOf v ks := rfl

theorem entriesOf_append (v : κ → V) (a b : List κ) :
    entriesOf v (a ++ b) = entriesOf v a ++ entriesOf v b := by
  simp [entriesOf]

theorem mapGet_append_of_none [DecidableEq κ] (c d : List (κ × V)) (k : κ)
    (h : mapGet c k = none) : mapGet (c ++ d) k = mapGet d k := by
  induction c with
  | nil => rfl
  | cons hd tl ih =>
    obtain ⟨k', v'⟩ := hd
    by_cases h0 : k' = k
    · simp [mapGet, h0] at h
    · simp [mapGet, h0] at h
      simp [mapGet, h0, ih h]

theorem mapGet_entriesOf_of_not_mem [DecidableEq κ] (v : κ → V) (ks : List κ)
    (k : κ) (h : k ∉ ks) : mapGet (entriesOf v ks) k = none := by
  induction ks with
  | nil => rfl
  | cons k' ks ih =>
    have h1 : k' ≠ k := fun he => h (he ▸ List.mem_cons_self k' ks)
    have h2 : k ∉ ks := fun hm => h (List.mem_cons_of_mem _ hm)
    simp [mapGet, h1]
    simpa [entriesOf] using ih h2

theorem maxSizeRun_append [DecidableEq κ] (fn : Nat → α → Except ε V)
    (keyOf : α → κ) (maxSize : Nat) (s : MaxSt κ V) (xs ys : List α) :
    memoizeWithMaxSizeRun fn keyOf maxSize s (xs ++ ys) =
      ((memoizeWithMaxSizeRun fn keyOf maxSize s xs).1 ++
        (memoizeWithMaxSizeRun fn keyOf maxSize
          (memoizeWithMaxSizeRun fn keyOf maxSize s xs).2.1 ys).1,
       (memoizeWithMaxSizeRun fn keyOf maxSize
          (memoizeWithMaxSizeRun fn keyOf maxSize s xs).2.1 ys).2.1,
       (memoizeWithMaxSizeRun fn keyOf maxSize s xs).2.2 ++
        (memoizeWithMaxSizeRun fn keyOf maxSize
          (memoizeWithMaxSizeRun fn keyOf maxSize s xs).2.1 ys).2.2) := by
  induction xs generalizing s with
  | nil => simp [memoizeWithMaxSizeRun]
  | cons x xs ih => simp [memoizeWithMaxSizeRun, ih]

/-- A miss with room left: the new entry is appended, nothing is evicted. -/
theorem maxSizeCall_miss_no_evict [DecidableEq κ] (fn : Nat → α → Except ε V)
    (keyOf : α → κ) (maxSize : Nat) (s : MaxSt κ V) (x : α) (r : V)
    (hnone : mapGet s.cache (keyOf x) = none)
    (hf : fn s.calls x = Except.ok r)
    (hroom : s.cache.length + 1 ≤ maxSize) :
    memoizeWithMaxSizeCall fn keyOf maxSize s x =
      (Except.ok r, ⟨s.cache ++ [(keyOf x, r)], s.calls + 1⟩, []) := by
  have hcap : ¬ maxSize < s.cache.length + 1 := by omega
  simp [memoizeWithMaxSizeCall, mapHas, hnone, hf, hcap,
    mapSet_of_absent s.cache (keyOf x) r hnone]

/-- A miss over capacity: the new entry is appended and the single oldest
entry (the head of the iteration order) is evicted. -/
theorem maxSizeCall_miss_evict [DecidableEq κ] (fn : Nat → α → Except ε V)
    (keyOf : α → κ) (maxSize : Nat) (k0 : κ) (w0 : V) (t : List (κ × V))
    (n : Nat) (x : α) (r : V)
    (hnone : mapGet ((k0, w0) :: t) (keyOf x) = none)
    (hf : fn n x = Except.ok r)
    (hfull : maxSize < t.length + 2) :
    memoizeWithMaxSizeCall fn keyOf maxSize ⟨(k0, w0) :: t, n⟩ x =
      (Except.ok r, ⟨t ++ [(keyOf x, r)], n + 1⟩, [k0]) := by
  have hset := mapSet_of_absent ((k0, w0) :: t) (keyOf x) r hnone
  simp [memoizeWithMaxSizeCall, mapHas, hnone, hf, hset, hfull, firstKey,
    mapDelete_cons_self]

/-- A hit: the entry is deleted and re-appended at the most-recently-used
end (with the freshly recomputed value, per the source). -/
theorem maxSizeCall_hit [DecidableEq κ] (fn : Nat → α → Except ε V)
    (keyOf : α → κ) (maxSize : Nat) (s : MaxSt κ V) (x : α) (w r : V)
    (hsome : mapGet s.cache (keyOf x) = some w)
    (hf : fn s.calls x = Except.ok r)
    (habsent : mapGet (mapDelete s.cache (keyOf x)) (keyOf x) = none) :
    memoizeWithMaxSizeCall fn keyOf maxSize s x =
      (Except.ok r,
        ⟨mapDelete s.cache (keyOf x) ++ [(keyOf x, r)], s.calls + 1⟩, []) := by
  simp [memoizeWithMaxSizeCall, mapHas, hsome, hf,
    mapSet_of_absent _ _ _ habsent]

/-- Filling a cache with fresh, pairwise-distinct keys that fit within the
capacity appends the entries in call order, with no eviction. -/
theorem maxSizeRun_fill [DecidableEq κ] {ε : Type w} (v : κ → V)
    (maxSize : Nat) :
    ∀ (ks : List κ) (c : List (κ × V)) (n : Nat),
      (∀ k ∈ ks, mapGet c k = none) → ks.Nodup →
      c.length + ks.length ≤ maxSize →
      memoizeWithMaxSizeRun (fun _ k => (Except.ok (v k) : Except ε V))
          (fun k => k) maxSize ⟨c, n⟩ ks =
        (ks.map (fun k => Except.ok (v k)),
          ⟨c ++ entriesOf v ks, n + ks.length⟩, []) := by
  intro ks
  induction ks with
  | nil => intro c n _ _ _; simp [memoizeWithMaxSizeRun]
  | cons k ks ih =>
    intro c n hfresh hnd hroom
    simp only [List.length_cons] at hroom
    have hk : mapGet c k = none := hfresh k (List.mem_cons_self k ks)
    have hstep := maxSizeCall_miss_no_evict
      (fun _ k => (Except.ok (v k) : Except ε V)) (fun k => k) maxSize
      ⟨c, n⟩ k (v k) hk rfl (by show c.length + 1 ≤ maxSize; omega)
    have hfresh' : ∀ k' ∈ ks, mapGet (c ++ [(k, v k)]) k' = none := by
      intro k' hk'
      have hne : k ≠ k' := by
        intro he; exact (List.nodup_cons.mp hnd).1 (he ▸ hk')
      rw [mapGet_append_of_none c _ k' (hfresh k' (List.mem_cons_of_mem _ hk'))]
      simp [mapGet, hne]
    have ihres := ih (c ++ [(k, v k)]) (n + 1) hfresh'
      (List.nodup_cons.mp hnd).2 (by simp; omega)
    simp only [memoizeWithMaxSizeRun, hstep, ihres]
    simp [List.append_assoc]
    omega

/-- Scenario: from empty, `N` distinct keys fill the cache, and one more
distinct key evicts exactly the first-inserted (least-recently-used) key. -/
theorem maxSize_fill_then_evict [DecidableEq κ] {ε : Type w} (v : κ → V)
    (N : Nat) (k₀ : κ) (kt : List κ) (klast : κ)
    (hN : (k₀ :: kt).length = N) (hnd : ((k₀ :: kt) ++ [klast]).Nodup) :
    memoizeWithMaxSizeRun (fun _ k => (Except.ok (v k) : Except ε V))
        (fun k => k) N ⟨[], 0⟩ ((k₀ :: kt) ++ [klast]) =
      (((k₀ :: kt) ++ [klast]).map (fun k => Except.ok (v k)),
        ⟨entriesOf v (kt ++ [klast]), N + 1⟩, [k₀]) := by
  obtain ⟨hnd1, hnd2, hdisj⟩ := List.nodup_append.mp hnd
  have hkl : klast ∉ k₀ :: kt :=
    fun hmem => hdisj hmem (List.mem_singleton.mpr rfl)
  have hfill := maxSizeRun_fill (ε := ε) v N (k₀ :: kt) [] 0
    (fun k _ => rfl) hnd1 (by simp [hN])
  have hnone : mapGet ((k₀, v k₀) :: entriesOf v kt) klast = none :=
    mapGet_entriesOf_of_not_mem v (k₀ :: kt) klast hkl
  have hstep := maxSizeCall_miss_evict
    (fun _ k => (Except.ok (v k) : Except ε V)) (fun k => k) N k₀ (v k₀)
    (entriesOf v kt) ((k₀ :: kt).length) klast (v klast) hnone rfl
    (by simp only [List.length_cons] at hN; simp [entriesOf]; omega)
  rw [maxSizeRun_append, hfill]
  simp only [List.nil_append, Nat.zero_add, entriesOf_cons]
  simp only [memoizeWithMaxSizeRun, hstep]
  simp [entriesOf_append, hN]

/-- Scenario: from empty, fill with `k₀, k₁, kt'` (capacity `N`), then a
hit on `k₀` moves it to most-recently-used, so inserting a fresh key
evicts `k₁` — the hit protected `k₀`, which stays in the cache. -/
theorem maxSize_hit_protects [DecidableEq κ] {ε : Type w} (v : κ → V)
    (N : Nat) (k₀ k₁ : κ) (kt' : List κ) (knew : κ)
    (hN : (k₀ :: k₁ :: kt').length = N)
    (hnd : ((k₀ :: k₁ :: kt') ++ [knew]).Nodup) :
    memoizeWithMaxSizeRun (fun _ k => (Except.ok (v k) : Except ε V))
        (fun k => k) N ⟨[], 0⟩ ((k₀ :: k₁ :: kt') ++ [k₀, knew]) =
      ((k₀ :: k₁ :: kt').map (fun k => Except.ok (v k)) ++
          [Except.ok (v k₀), Except.ok (v knew)],
        ⟨entriesOf v (kt' ++ [k₀, knew]), N + 2⟩, [k₁]) := by
  obtain ⟨hnd1, hnd2, hdisj⟩ := List.nodup_append.mp hnd
  have hk0 : k₀ ∉ k₁ :: kt' := (List.nodup_cons.mp hnd1).1
  have hknew : knew ∉ k₀ :: k₁ :: kt' :=
    fun hmem => hdisj hmem (List.mem_singleton.mpr rfl)
  have hfill := maxSizeRun_fill (ε := ε) v N (k₀ :: k₁ :: kt') [] 0
    (fun k _ => rfl) hnd1 (by simp [hN])
  have hsome : mapGet ((k₀, v k₀) :: entriesOf v (k₁ :: kt')) k₀ =
      some (v k₀) := by
    simp [mapGet]
  have habsent : mapGet
      (mapDelete ((k₀, v k₀) :: entriesOf v (k₁ :: kt')) k₀) k₀ = none := by
    rw [mapDelete_cons_self]
    exact mapGet_entriesOf_of_not_mem v (k₁ :: kt') k₀ hk0
  have hhit := maxSizeCall_hit
    (fun _ k => (Except.ok (v k) : Except ε V)) (fun k => k) N
    ⟨(k₀, v k₀) :: entriesOf v (k₁ :: kt'), (k₀ :: k₁ :: kt').length⟩
    k₀ (v k₀) (v k₀) hsome rfl habsent
  have h1 : mapGet (entriesOf v (k₁ :: kt')) knew = none :=
    mapGet_entriesOf_of_not_mem v (k₁ :: kt') knew
      (fun hm => hknew (List.mem_cons_of_mem _ hm))
  have hk0knew : k₀ ≠ knew :=
    fun he => hknew (he ▸ List.mem_cons_self k₀ (k₁ :: kt'))
  have hnone2 : mapGet ((k₁, v k₁) ::
      (entriesOf v kt' ++ [(k₀, v k₀)])) knew = none := by
    have := mapGet_append_of_none (entriesOf v (k₁ :: kt'))
      [(k₀, v k₀)] knew h1
    simpa [mapGet, hk0knew] using this
  have hstep2 := maxSizeCall_miss_evict
    (fun _ k => (Except.ok (v k) : Except ε V)) (fun k => k) N k₁ (v k₁)
    (entriesOf v kt' ++ [(k₀, v k₀)]) ((k₀ :: k₁ :: kt').length + 1)
    knew (v knew) hnone2 rfl
    (by simp only [List.length_cons] at hN; simp [entriesOf]; omega)
  simp only [List.length_cons] at hN
  rw [maxSizeRun_append, hfill]
  simp only [memoizeWithMaxSizeRun]
  simp [mapDelete_cons_self, hN] at hhit hstep2
  simp [hhit, hstep2, entriesOf_append, mapDelete_cons_self, hN]

/-- C2: for the capacity-bounded cache with `maxEntries = N`, (a)
inserting `N + 1` pairwise-distinct keys from empty (each call a miss)
evicts exactly one entry — the least-recently-used, i.e. first-inserted,
key `k₀` — leaving exactly the other `N` keys cached; and (b) a lookup hit
on `k₀` just before the overflowing insertion moves `k₀` to
most-recently-used position, so the insertion evicts `k₁` instead and
`k₀` stays cached. -/
theorem memoizeWithMaxSize_evicts_lru [DecidableEq κ] {ε : Type w} :
    (∀ (v : κ → V) (N : Nat) (k₀ : κ) (kt : List κ) (klast : κ),
        (k₀ :: kt).length = N → ((k₀ :: kt) ++ [klast]).Nodup →
        memoizeWithMaxSizeRun (fun _ k => (Except.ok (v k) : Except ε V))
            (fun k => k) N ⟨[], 0⟩ ((k₀ :: kt) ++ [klast]) =
          (((k₀ :: kt) ++ [klast]).map (fun k => Except.ok (v k)),
            ⟨entriesOf v (kt ++ [klast]), N + 1⟩, [k₀])) ∧
    (∀ (v : κ → V) (N : Nat) (k₀ k₁ : κ) (kt' : List κ) (knew : κ),
        (k₀ :: k₁ :: kt').length = N →
        ((k₀ :: k₁ :: kt') ++ [knew]).Nodup →
        memoizeWithMaxSizeRun (fun _ k => (Except.ok (v k) : Except ε V))
            (fun k => k) N ⟨[], 0⟩ ((k₀ :: k₁ :: kt') ++ [k₀, knew]) =
          ((k₀ :: k₁ :: kt').map (fun k => Except.ok (v k)) ++
              [Except.ok (v k₀), Except.ok (v knew)],
            ⟨entriesOf v (kt' ++ [k₀, knew]), N + 2⟩, [k₁])) :=
  ⟨fun v N k₀ kt klast hN hnd => maxSize_fill_then_evict v N k₀ kt klast hN hnd,
   fun v N k₀ k₁ kt' knew hN hnd =>
     maxSize_hit_protects v N k₀ k₁ kt' knew hN hnd⟩

/-- Witness for C2 at the spec's concrete scenario (`maxEntries = 3`,
`compute x = x³`): calls `1,2,3,4` evict key `1` only; calls
`1,2,3,1,4` (hit on `1` before the overflow) evict key `2` only, and `1`
stays cached. -/
theorem memoizeWithMaxSize_evicts_lru_witness :
    memoizeWithMaxSizeRun
        (fun _ k => (Except.ok (k * k * k) : Except Unit Nat))
        (fun k => k) 3 ⟨[], 0⟩ [1, 2, 3, 4] =
      ([Except.ok 1, Except.ok 8, Except.ok 27, Except.ok 64],
        ⟨[(2, 8), (3, 27), (4, 64)], 4⟩, [1]) ∧
    memoizeWithMaxSizeRun
        (fun _ k => (Except.ok (k * k * k) : Except Unit Nat))
        (fun k => k) 3 ⟨[], 0⟩ [1, 2, 3, 1, 4] =
      ([Except.ok 1, Except.ok 8, Except.ok 27, Except.ok 1, Except.ok 64],
        ⟨[(3, 27), (1, 1), (4, 64)], 5⟩, [2]) := by
  constructor
  · have h := (memoizeWithMaxSize_evicts_lru (κ := Nat) (V := Nat)
      (ε := Unit)).1 (fun k => k * k * k) 3 1 [2, 3] 4 rfl (by decide)
    simpa [entriesOf] using h
  · have h := (memoizeWithMaxSize_evicts_lru (κ := Nat) (V := Nat)
      (ε := Unit)).2 (fun k => k * k * k) 3 1 2 [3] 4 rfl (by decide)
    simpa [entriesOf] using h
